import Mathlib

set_option maxHeartbeats 1000000
set_option maxRecDepth 4000
set_option linter.unreachableTactic false
set_option linter.unnecessarySeqFocus false
set_option linter.unusedTactic false
set_option linter.unusedVariables false

namespace Meguca

/-- Display tree node: tag name, text payload, ordered children.  Embeds the
brunhild::Node trees built by Post in src/client_cpp/src/posts/models.hh;
a node with empty tag is a plain text fragment. -/
inductive Node where
| node (tag : String) (text : String) (children : List Node)

def Node.tag : Node → String
| .node t _ _ => t

def Node.children : Node → List Node
| .node _ _ c => c

/-- An open element on the insertion-point stack together with the children
accumulated for it so far.  The C++ TextState keeps a vector of non-owning
pointers into the tree being built; the pure embedding keeps the open
elements themselves (a zipper): the head of the list is the top of the
stack (the innermost open element), and closing an element attaches it as
the last child of the frame below. -/
structure Frame where
  tag : String
  text : String
  children : List Node

def Frame.toNode (f : Frame) : Node := .node f.tag f.text f.children

def Frame.ofNode : Node → Frame
| .node t x c => ⟨t, x, c⟩

/-- State of a post's text (class TextState in models.hh): the formatting
flags, the line counters and the insertion-point stack. -/
structure TextState where
  spoiler : Bool := false
  quote : Bool := false
  code : Bool := false
  bold : Bool := false
  italic : Bool := false
  have_syncwatch : Bool := false
  successive_newlines : Int := 0
  dice_index : Int := 0
  parents : List Frame := []

/-- TextState::ascend from the source, which is the unconditional
`parents.pop_back()`.  The top frame is popped; in the zipper representation
the closed element is attached as the last child of the frame below.  With
only one entry on the stack the pop still happens (the source performs an
unchecked pop_back), leaving an empty stack. -/
def TextState.ascend (s : TextState) : TextState :=
  match s.parents with
  | f :: p :: rest =>
      { s with parents := { p with children := p.children ++ [f.toNode] } :: rest }
  | _ => { s with parents := [] }

/-- Modelled from the spec: TextState::append is declared but not defined
under src.  Spec 4.1: "inserts node as the last child of the current
top-of-stack insertion point. If descend is true, also pushes node itself
as the new top-of-stack."  On an empty stack (unreachable in correct use)
it is a no-op. -/
def TextState.append (s : TextState) (n : Node) (descend : Bool) : TextState :=
  match s.parents with
  | [] => s
  | top :: rest =>
      if descend then { s with parents := Frame.ofNode n :: top :: rest }
      else { s with parents := { top with children := top.children ++ [n] } :: rest }

/-- Modelled from the spec: TextState::reset is declared but not defined
under src.  Spec 4.1: clears all flags and counters, empties the
insertion-point stack and pushes the root as the sole entry. -/
def reset_state (root : Node) : TextState :=
  { parents := [Frame.ofNode root] }

/-- The fresh state at the start of a render pass, rooted at the post body
container element. -/
def init_state : TextState := reset_state (.node "blockquote" "" [])

def collapse : Frame → List Frame → Node
| f, [] => f.toNode
| f, g :: rest => collapse { g with children := g.children ++ [f.toNode] } rest

/-- Close every still-open element and return the completed tree rooted at
the bottom entry of the stack. -/
def finalize (s : TextState) : Node :=
  match s.parents with
  | [] => .node "" "" []
  | f :: rest => collapse f rest

/-- Index of the first occurrence of sep in l, as std::string_view::find
returns it (none when absent). -/
def findSub (l sep : List Char) : Option Nat :=
  if sep.isPrefixOf l then some 0
  else
    match l with
    | [] => none
    | _ :: t => (findSub t sep).map (· + 1)

/-- The while-loop of Post::parse_string with explicit structural fuel:
find the next occurrence of sep; if found, run filler on the text before
it, run on_match, and continue after it; otherwise run filler on the whole
remaining fragment.  For a non-empty separator every iteration consumes at
least one character, so fuel frag.length + 1 always reaches the loop's
natural exit; the fuel-exhaustion branch is then unreachable. -/
def parse_string_fuel {σ : Type} (sep : List Char) (filler : List Char → σ → σ)
    (on_match : σ → σ) : Nat → List Char → σ → σ
| 0, frag, st => filler frag st
| fuel + 1, frag, st =>
    match findSub frag sep with
    | some i =>
        parse_string_fuel sep filler on_match fuel (frag.drop (i + sep.length))
          (on_match (filler (frag.take i) st))
    | none => filler frag st

/-- Post::parse_string from the source: split the fragment at occurrences of
sep and run filler on the pieces and on_match at each separator, left to
right. -/
def parse_string {σ : Type} (sep : List Char) (filler : List Char → σ → σ)
    (on_match : σ → σ) (frag : List Char) (st : σ) : σ :=
  parse_string_fuel sep filler on_match (frag.length + 1) frag st

def split_fuel (sep : List Char) : Nat → List Char → List (List Char)
| 0, frag => [frag]
| fuel + 1, frag =>
    match findSub frag sep with
    | some i => frag.take i :: split_fuel sep fuel (frag.drop (i + sep.length))
    | none => [frag]

/-- The successive pieces of frag cut at occurrences of sep, leftmost
occurrence first; a fragment with k occurrences yields k + 1 pieces. -/
def splitPieces (sep frag : List Char) : List (List Char) :=
  split_fuel sep (frag.length + 1) frag

/-- Reference fold: run filler on every piece and on_match between
consecutive pieces, left to right. -/
def runPieces {σ : Type} (filler : List Char → σ → σ) (on_match : σ → σ) :
    List (List Char) → σ → σ
| [], st => st
| [p], st => filler p st
| p :: q :: ps, st => runPieces filler on_match (q :: ps) (on_match (filler p st))

/-- The on_match lambda of Post::parse_italics. -/
def italic_toggle (s : TextState) : TextState :=
  let s1 := if s.italic then s.ascend else s.append (.node "i" "" []) true
  { s1 with italic := !s1.italic }

/-- The on_match lambda of Post::parse_bolds. -/
def bold_toggle (s : TextState) : TextState :=
  let s1 := if s.italic then s.ascend else s
  let s2 := if s1.bold then s1.ascend else s1.append (.node "b" "" []) true
  let s3 := if s2.italic then s2.append (.node "i" "" []) true else s2
  { s3 with bold := !s3.bold }

/-- The on_match lambda of Post::parse_spoilers. -/
def spoiler_toggle (s : TextState) : TextState :=
  let s1 := if s.italic then s.ascend else s
  let s2 := if s1.bold then s1.ascend else s1
  let s3 := if s2.spoiler then s2.ascend else s2.append (.node "del" "" []) true
  let s4 := if s3.bold then s3.append (.node "b" "" []) true else s3
  let s5 := if s4.italic then s4.append (.node "i" "" []) true else s4
  { s5 with spoiler := !s5.spoiler }

/-- The on_match lambda of Post::parse_code: only the code flag flips; no
tree or stack operation is performed. -/
def code_toggle (s : TextState) : TextState :=
  { s with code := !s.code }

/-- Modelled from the spec: the source's highlighter member (declared but
not defined under src; renamed here to fit local naming rules).  Spec 4.4:
code text is rendered literally, then passed to a syntax highlighter;
embedded as appending one literal code leaf at the current insertion
point, leaving every parser flag untouched. -/
def highlight_code (frag : List Char) (s : TextState) : TextState :=
  s.append (.node "code" (String.mk frag) []) false

/-- The quote-stripping loop inside Post::parse_code: drop every leading
quote character of the fragment. -/
def strip_quotes : List Char → List Char
| '>' :: rest => strip_quotes rest
| l => l

/-- The escaped-quote string the conditional branch of Post::parse_code
builds: its loop runs i = 0 .. num_quotes inclusive, appending one escaped
marker per iteration, i.e. num_quotes + 1 copies. -/
def gt_text (num_quotes : Nat) : String :=
  String.join (List.replicate (num_quotes + 1) "&gt;")

/-- Modelled from the spec: the innermost filler of the pipeline
(Post::parse_fragment is declared but not defined under src).  Spec 4.5:
text claimed by no scanner is fed through and appended literally at the
current insertion point. -/
def append_text (frag : List Char) (s : TextState) : TextState :=
  s.append (.node "" (String.mk frag) []) false

/-- Post::parse_italics: scan for the italic delimiter, handing the pieces
to fn. -/
def parse_italics (fn : List Char → TextState → TextState)
    (frag : List Char) (s : TextState) : TextState :=
  parse_string ['~', '~'] fn italic_toggle frag s

/-- Post::parse_bolds: scan for the bold delimiter, handing the pieces to
parse_italics. -/
def parse_bolds (fn : List Char → TextState → TextState)
    (frag : List Char) (s : TextState) : TextState :=
  parse_string ['_', '_'] (parse_italics fn) bold_toggle frag s

/-- Post::parse_spoilers: scan for the spoiler delimiter, handing the
pieces to parse_bolds. -/
def parse_spoilers (fn : List Char → TextState → TextState)
    (frag : List Char) (s : TextState) : TextState :=
  parse_string ['*', '*'] (parse_bolds fn) spoiler_toggle frag s

/-- The filler lambda of Post::parse_code.  With a code span open, the
fragment's leading quote characters are stripped; num_quotes is initialised
to 0 and, exactly as in the source, never incremented by the stripping
loop, so the branch that would append the escaped-quote span is dead; the
stripped fragment goes to the syntax highlighter.  With no code span open
the fragment is handed to parse_spoilers. -/
def code_filler (fn : List Char → TextState → TextState)
    (frag : List Char) (s : TextState) : TextState :=
  if s.code then
    let num_quotes : Nat := 0
    let frag2 := strip_quotes frag
    let s1 :=
      if num_quotes ≠ 0 then s.append (.node "span" (gt_text num_quotes) []) false
      else s
    highlight_code frag2 s1
  else parse_spoilers fn frag s

/-- The code delimiter character (backquote, code point 96). -/
def bq : Char := Char.ofNat 96

/-- Post::parse_code: scan for the code delimiter; pieces go to the code
filler and each hit flips the code flag. -/
def parse_code (fn : List Char → TextState → TextState)
    (frag : List Char) (s : TextState) : TextState :=
  parse_string [bq, bq] (code_filler fn) code_toggle frag s

@[simp] lemma ascend_spoiler (s : TextState) : s.ascend.spoiler = s.spoiler := by
  unfold TextState.ascend
  cases h : s.parents with
  | nil => rfl
  | cons f rest => cases rest <;> rfl

@[simp] lemma ascend_bold (s : TextState) : s.ascend.bold = s.bold := by
  unfold TextState.ascend
  cases h : s.parents with
  | nil => rfl
  | cons f rest => cases rest <;> rfl

@[simp] lemma ascend_italic (s : TextState) : s.ascend.italic = s.italic := by
  unfold TextState.ascend
  cases h : s.parents with
  | nil => rfl
  | cons f rest => cases rest <;> rfl

@[simp] lemma ascend_code (s : TextState) : s.ascend.code = s.code := by
  unfold TextState.ascend
  cases h : s.parents with
  | nil => rfl
  | cons f rest => cases rest <;> rfl

@[simp] lemma append_spoiler (s : TextState) (n : Node) (d : Bool) :
    (s.append n d).spoiler = s.spoiler := by
  unfold TextState.append
  cases h : s.parents with
  | nil => rfl
  | cons f rest => cases d <;> rfl

@[simp] lemma append_bold (s : TextState) (n : Node) (d : Bool) :
    (s.append n d).bold = s.bold := by
  unfold TextState.append
  cases h : s.parents with
  | nil => rfl
  | cons f rest => cases d <;> rfl

@[simp] lemma append_italic (s : TextState) (n : Node) (d : Bool) :
    (s.append n d).italic = s.italic := by
  unfold TextState.append
  cases h : s.parents with
  | nil => rfl
  | cons f rest => cases d <;> rfl

@[simp] lemma append_code (s : TextState) (n : Node) (d : Bool) :
    (s.append n d).code = s.code := by
  unfold TextState.append
  cases h : s.parents with
  | nil => rfl
  | cons f rest => cases d <;> rfl

lemma ascend_length (s : TextState) :
    s.ascend.parents.length = s.parents.length - 1 := by
  unfold TextState.ascend
  cases h : s.parents with
  | nil => simp
  | cons f rest => cases rest <;> simp

lemma ascend_tags (s : TextState) :
    s.ascend.parents.map Frame.tag = (s.parents.map Frame.tag).tail := by
  unfold TextState.ascend
  cases h : s.parents with
  | nil => simp
  | cons f rest => cases rest <;> simp

lemma append_false_length (s : TextState) (n : Node) :
    (s.append n false).parents.length = s.parents.length := by
  unfold TextState.append
  cases h : s.parents with
  | nil => simp [h]
  | cons f rest => simp

lemma append_false_tags (s : TextState) (n : Node) :
    (s.append n false).parents.map Frame.tag = s.parents.map Frame.tag := by
  unfold TextState.append
  cases h : s.parents with
  | nil => simp [h]
  | cons f rest => simp

lemma append_true_length (s : TextState) (n : Node) (h : s.parents ≠ []) :
    (s.append n true).parents.length = s.parents.length + 1 := by
  unfold TextState.append
  cases hp : s.parents with
  | nil => exact absurd hp h
  | cons f rest => simp

lemma append_true_tags (s : TextState) (n : Node) (h : s.parents ≠ []) :
    (s.append n true).parents.map Frame.tag
      = n.tag :: s.parents.map Frame.tag := by
  unfold TextState.append
  cases hp : s.parents with
  | nil => exact absurd hp h
  | cons f rest =>
      cases n
      simp [Frame.ofNode, Node.tag]

@[simp] lemma code_toggle_parents (s : TextState) :
    (code_toggle s).parents = s.parents := rfl

@[simp] lemma code_toggle_code (s : TextState) :
    (code_toggle s).code = !s.code := rfl

@[simp] lemma code_toggle_spoiler (s : TextState) :
    (code_toggle s).spoiler = s.spoiler := rfl

@[simp] lemma code_toggle_bold (s : TextState) :
    (code_toggle s).bold = s.bold := rfl

@[simp] lemma code_toggle_italic (s : TextState) :
    (code_toggle s).italic = s.italic := rfl

@[simp] lemma italic_toggle_italic (s : TextState) :
    (italic_toggle s).italic = !s.italic := by
  cases hi : s.italic <;> simp [italic_toggle, hi]

@[simp] lemma italic_toggle_bold (s : TextState) :
    (italic_toggle s).bold = s.bold := by
  cases hi : s.italic <;> simp [italic_toggle, hi]

@[simp] lemma italic_toggle_spoiler (s : TextState) :
    (italic_toggle s).spoiler = s.spoiler := by
  cases hi : s.italic <;> simp [italic_toggle, hi]

@[simp] lemma italic_toggle_code (s : TextState) :
    (italic_toggle s).code = s.code := by
  cases hi : s.italic <;> simp [italic_toggle, hi]

@[simp] lemma bold_toggle_bold (s : TextState) :
    (bold_toggle s).bold = !s.bold := by
  cases hi : s.italic <;> cases hb : s.bold <;> simp [bold_toggle, hi, hb]

@[simp] lemma bold_toggle_italic (s : TextState) :
    (bold_toggle s).italic = s.italic := by
  cases hi : s.italic <;> cases hb : s.bold <;> simp [bold_toggle, hi, hb]

@[simp] lemma bold_toggle_spoiler (s : TextState) :
    (bold_toggle s).spoiler = s.spoiler := by
  cases hi : s.italic <;> cases hb : s.bold <;> simp [bold_toggle, hi, hb]

@[simp] lemma bold_toggle_code (s : TextState) :
    (bold_toggle s).code = s.code := by
  cases hi : s.italic <;> cases hb : s.bold <;> simp [bold_toggle, hi, hb]

@[simp] lemma spoiler_toggle_spoiler (s : TextState) :
    (spoiler_toggle s).spoiler = !s.spoiler := by
  cases hi : s.italic <;> cases hb : s.bold <;> cases hs : s.spoiler <;>
    simp [spoiler_toggle, hi, hb, hs]

@[simp] lemma spoiler_toggle_bold (s : TextState) :
    (spoiler_toggle s).bold = s.bold := by
  cases hi : s.italic <;> cases hb : s.bold <;> cases hs : s.spoiler <;>
    simp [spoiler_toggle, hi, hb, hs]

@[simp] lemma spoiler_toggle_italic (s : TextState) :
    (spoiler_toggle s).italic = s.italic := by
  cases hi : s.italic <;> cases hb : s.bold <;> cases hs : s.spoiler <;>
    simp [spoiler_toggle, hi, hb, hs]

@[simp] lemma spoiler_toggle_code (s : TextState) :
    (spoiler_toggle s).code = s.code := by
  cases hi : s.italic <;> cases hb : s.bold <;> cases hs : s.spoiler <;>
    simp [spoiler_toggle, hi, hb, hs]

@[simp] lemma append_text_spoiler (p : List Char) (s : TextState) :
    (append_text p s).spoiler = s.spoiler := by simp [append_text]

@[simp] lemma append_text_bold (p : List Char) (s : TextState) :
    (append_text p s).bold = s.bold := by simp [append_text]

@[simp] lemma append_text_italic (p : List Char) (s : TextState) :
    (append_text p s).italic = s.italic := by simp [append_text]

@[simp] lemma append_text_code (p : List Char) (s : TextState) :
    (append_text p s).code = s.code := by simp [append_text]


lemma findSub_bound : ∀ (l sep : List Char) (i : Nat),
    findSub l sep = some i → i + sep.length ≤ l.length := by
  intro l
  induction l with
  | nil =>
      intro sep i h
      unfold findSub at h
      by_cases hp : sep.isPrefixOf ([] : List Char)
      · rw [if_pos hp] at h
        obtain rfl : (0 : Nat) = i := Option.some.inj h
        have hpre : sep <+: [] := List.isPrefixOf_iff_prefix.mp hp
        simpa using hpre.length_le
      · rw [if_neg hp] at h
        exact absurd h (by simp)
  | cons c t ih =>
      intro sep i h
      unfold findSub at h
      by_cases hp : sep.isPrefixOf (c :: t)
      · rw [if_pos hp] at h
        obtain rfl : (0 : Nat) = i := Option.some.inj h
        have hpre : sep <+: c :: t := List.isPrefixOf_iff_prefix.mp hp
        simpa using hpre.length_le
      · rw [if_neg hp] at h
        simp only [Option.map_eq_some'] at h
        obtain ⟨j, hj, rfl⟩ := h
        have := ih sep j hj
        simp only [List.length_cons]
        omega

lemma sep_length_pos (sep : List Char) (hs : sep ≠ []) : 1 ≤ sep.length := by
  cases sep with
  | nil => exact absurd rfl hs
  | cons a t => simp

lemma split_fuel_congr (sep : List Char) (hs : sep ≠ []) :
    ∀ f1 f2 frag, frag.length < f1 → frag.length < f2 →
      split_fuel sep f1 frag = split_fuel sep f2 frag := by
  intro f1
  induction f1 with
  | zero => intro f2 frag h1 _; omega
  | succ n ih =>
      intro f2 frag h1 h2
      cases f2 with
      | zero => omega
      | succ m =>
          cases hf : findSub frag sep with
          | none => simp only [split_fuel, hf]
          | some i =>
              have hb := findSub_bound frag sep i hf
              have hsl := sep_length_pos sep hs
              have hd : (frag.drop (i + sep.length)).length < n := by
                simp only [List.length_drop]; omega
              have hd2 : (frag.drop (i + sep.length)).length < m := by
                simp only [List.length_drop]; omega
              simp only [split_fuel, hf]
              rw [ih m _ hd hd2]

lemma split_fuel_ne_nil (sep : List Char) (fuel : Nat) (frag : List Char) :
    split_fuel sep fuel frag ≠ [] := by
  cases fuel with
  | zero => simp [split_fuel]
  | succ n => cases hf : findSub frag sep <;> simp [split_fuel, hf]

lemma splitPieces_ne_nil (sep frag : List Char) : splitPieces sep frag ≠ [] :=
  split_fuel_ne_nil sep (frag.length + 1) frag

lemma runPieces_cons {σ : Type} (fi : List Char → σ → σ) (tg : σ → σ)
    (p : List Char) (ps : List (List Char)) (st : σ) (h : ps ≠ []) :
    runPieces fi tg (p :: ps) st = runPieces fi tg ps (tg (fi p st)) := by
  cases ps with
  | nil => exact absurd rfl h
  | cons q ps2 => rfl

lemma parse_string_fuel_eq {σ : Type} (sep : List Char) (hs : sep ≠ [])
    (fi : List Char → σ → σ) (tg : σ → σ) :
    ∀ (fuel : Nat) (frag : List Char) (st : σ), frag.length < fuel →
      parse_string_fuel sep fi tg fuel frag st
        = runPieces fi tg (split_fuel sep fuel frag) st := by
  intro fuel
  induction fuel with
  | zero => intro frag st h; omega
  | succ n ih =>
      intro frag st h
      cases hf : findSub frag sep with
      | none => simp [parse_string_fuel, split_fuel, hf, runPieces]
      | some i =>
          have hb := findSub_bound frag sep i hf
          have hsl := sep_length_pos sep hs
          have hd : (frag.drop (i + sep.length)).length < n := by
            simp only [List.length_drop]; omega
          simp only [parse_string_fuel, split_fuel, hf]
          rw [ih _ _ hd, runPieces_cons _ _ _ _ _ (split_fuel_ne_nil sep n _)]

/-- The operational scan equals the reference fold over the pieces. -/
lemma parse_string_eq_runPieces {σ : Type} (sep : List Char) (hs : sep ≠ [])
    (fi : List Char → σ → σ) (tg : σ → σ) (frag : List Char) (st : σ) :
    parse_string sep fi tg frag st = runPieces fi tg (splitPieces sep frag) st :=
  parse_string_fuel_eq sep hs fi tg (frag.length + 1) frag st (by omega)

lemma runPieces_pres {σ : Type} (P : σ → Prop) (fi : List Char → σ → σ) (tg : σ → σ)
    (hf : ∀ p st, P st → P (fi p st)) (ht : ∀ st, P st → P (tg st)) :
    ∀ (ps : List (List Char)) (st : σ), P st → P (runPieces fi tg ps st) := by
  intro ps
  induction ps with
  | nil => intro st h; exact h
  | cons p ps2 ih =>
      intro st h
      cases ps2 with
      | nil => exact hf p st h
      | cons q ps3 => exact ih _ (ht _ (hf p st h))

lemma parity_step (n : Nat) (b : Bool) :
    (((n + 1) % 2 == 1) ^^ b) = ((n % 2 == 1) ^^ !b) := by
  rcases Nat.mod_two_eq_zero_or_one n with h | h <;>
    · have h2 : (n + 1) % 2 = (n % 2 + 1) % 2 := by omega
      rw [h2, h]
      cases b <;> rfl

lemma runPieces_parity (fi : List Char → TextState → TextState)
    (tg : TextState → TextState)
    (hf : ∀ p st, (fi p st).spoiler = st.spoiler)
    (ht : ∀ st, (tg st).spoiler = !st.spoiler) :
    ∀ (ps : List (List Char)) (st : TextState), ps ≠ [] →
      (runPieces fi tg ps st).spoiler
        = (((ps.length - 1) % 2 == 1) ^^ st.spoiler) := by
  intro ps
  induction ps with
  | nil => intro st h; exact absurd rfl h
  | cons p ps2 ih =>
      intro st _
      cases ps2 with
      | nil => simp [runPieces, hf]
      | cons q ps3 =>
          have hlhs : runPieces fi tg (p :: q :: ps3) st
              = runPieces fi tg (q :: ps3) (tg (fi p st)) := rfl
          rw [hlhs, ih _ (by simp)]
          have hlen : (p :: q :: ps3).length - 1 = ((q :: ps3).length - 1) + 1 := by
            simp
          rw [hlen, parity_step, ht, hf]

/-- One invocation record of the scan: filler on a piece, or on_match. -/
inductive Event where
| fill (piece : List Char) : Event
| tog : Event

def Event.isFill : Event → Bool
| .fill _ => true
| .tog => false

def Event.isTog : Event → Bool
| .fill _ => false
| .tog => true

/-- The invocation trace of one parse_string call: one fill event per filler
invocation and one tog event per on_match invocation, in invocation order. -/
def eventLog (sep frag : List Char) : List Event :=
  parse_string sep (fun p l => l ++ [Event.fill p]) (fun l => l ++ [Event.tog]) frag []

/-- The expected trace over a piece list: the pieces filled left to right
with one toggle between consecutive pieces. -/
def pieceEvents : List (List Char) → List Event
| [] => []
| [p] => [Event.fill p]
| p :: q :: ps => Event.fill p :: Event.tog :: pieceEvents (q :: ps)

lemma runPieces_log : ∀ (ps : List (List Char)) (acc : List Event),
    runPieces (fun p l => l ++ [Event.fill p]) (fun l => l ++ [Event.tog]) ps acc
      = acc ++ pieceEvents ps := by
  intro ps
  induction ps with
  | nil => intro acc; simp [runPieces, pieceEvents]
  | cons p ps2 ih =>
      intro acc
      cases ps2 with
      | nil => simp [runPieces, pieceEvents]
      | cons q ps3 =>
          have h : runPieces (fun p l => l ++ [Event.fill p])
                (fun l => l ++ [Event.tog]) (p :: q :: ps3) acc
              = runPieces (fun p l => l ++ [Event.fill p])
                  (fun l => l ++ [Event.tog]) (q :: ps3)
                  ((acc ++ [Event.fill p]) ++ [Event.tog]) := rfl
          rw [h, ih]
          simp [pieceEvents]

lemma eventLog_eq (sep frag : List Char) (hs : sep ≠ []) :
    eventLog sep frag = pieceEvents (splitPieces sep frag) := by
  unfold eventLog
  rw [parse_string_eq_runPieces sep hs, runPieces_log]
  simp

lemma pieceEvents_countP_tog : ∀ (ps : List (List Char)), ps ≠ [] →
    (pieceEvents ps).countP Event.isTog = ps.length - 1 := by
  intro ps
  induction ps with
  | nil => intro h; exact absurd rfl h
  | cons p ps2 ih =>
      intro _
      cases ps2 with
      | nil => simp [pieceEvents, List.countP_cons, Event.isTog]
      | cons q ps3 =>
          have h : pieceEvents (p :: q :: ps3)
              = Event.fill p :: Event.tog :: pieceEvents (q :: ps3) := rfl
          rw [h]
          simp only [List.countP_cons, ih (by simp)]
          simp [Event.isTog]

lemma pieceEvents_countP_fill : ∀ (ps : List (List Char)),
    (pieceEvents ps).countP Event.isFill = ps.length := by
  intro ps
  induction ps with
  | nil => simp [pieceEvents]
  | cons p ps2 ih =>
      cases ps2 with
      | nil => simp [pieceEvents, List.countP_cons, Event.isFill]
      | cons q ps3 =>
          have h : pieceEvents (p :: q :: ps3)
              = Event.fill p :: Event.tog :: pieceEvents (q :: ps3) := rfl
          rw [h]
          simp only [List.countP_cons, ih]
          simp [Event.isFill, Event.isTog]

lemma pieceEvents_length : ∀ (ps : List (List Char)), ps ≠ [] →
    (pieceEvents ps).length = 2 * (ps.length - 1) + 1 := by
  intro ps
  induction ps with
  | nil => intro h; exact absurd rfl h
  | cons p ps2 ih =>
      intro _
      cases ps2 with
      | nil => simp [pieceEvents]
      | cons q ps3 =>
          have h : pieceEvents (p :: q :: ps3)
              = Event.fill p :: Event.tog :: pieceEvents (q :: ps3) := rfl
          rw [h]
          simp only [List.length_cons, ih (by simp)]
          simp
          omega

lemma split_fuel_length_le (sep : List Char) (hs : sep ≠ []) :
    ∀ (fuel : Nat) (frag : List Char),
      (split_fuel sep fuel frag).length ≤ frag.length + 1 := by
  intro fuel
  induction fuel with
  | zero => intro frag; simp [split_fuel]
  | succ n ih =>
      intro frag
      unfold split_fuel
      cases hf : findSub frag sep with
      | none => simp
      | some i =>
          have hb := findSub_bound frag sep i hf
          have hsl := sep_length_pos sep hs
          have := ih (frag.drop (i + sep.length))
          simp only [List.length_cons, List.length_drop] at *
          omega


/-- Nesting rank of the formatting tags as the program actually produces
them: spoiler outside bold outside italic, and highlighted code content as
an innermost leaf that admits no formatting wrapper inside it.  The code
toggle creates no wrapper element, so code content sits at the current
insertion point, inside whatever wrappers are open. -/
def fmtRank : String → Option Nat
| "del" => some 0
| "b" => some 1
| "i" => some 2
| "code" => some 3
| _ => none

@[simp] lemma fmtRank_del : fmtRank "del" = some 0 := rfl
@[simp] lemma fmtRank_b : fmtRank "b" = some 1 := rfl
@[simp] lemma fmtRank_i : fmtRank "i" = some 2 := rfl
@[simp] lemma fmtRank_code : fmtRank "code" = some 3 := rfl
@[simp] lemma fmtRank_text : fmtRank "" = none := rfl
@[simp] lemma fmtRank_blockquote : fmtRank "blockquote" = none := rfl
@[simp] lemma fmtRank_span : fmtRank "span" = none := rfl

mutual
/-- The canonical-nesting check: every formatting wrapper met below this
point must have rank at least r, and the wrappers must strictly deepen in
rank, so along any root-to-leaf path the formatting ancestry reads
del, b, i in that order and nothing formatted sits inside code content. -/
def nestOK : Node → Nat → Bool
| .node tag _ children, r =>
    match fmtRank tag with
    | some k => decide (r ≤ k) && nestOKList children (k + 1)
    | none => nestOKList children r
def nestOKList : List Node → Nat → Bool
| [], _ => true
| n :: ns, r => nestOK n r && nestOKList ns r
end

@[simp] lemma nestOKList_nil (r : Nat) : nestOKList [] r = true := rfl

@[simp] lemma nestOKList_cons (n : Node) (ns : List Node) (r : Nat) :
    nestOKList (n :: ns) r = (nestOK n r && nestOKList ns r) := rfl

@[simp] lemma nestOK_del_node (x : String) (cs : List Node) (r : Nat) :
    nestOK (.node "del" x cs) r = (decide (r ≤ 0) && nestOKList cs 1) := rfl

@[simp] lemma nestOK_b_node (x : String) (cs : List Node) (r : Nat) :
    nestOK (.node "b" x cs) r = (decide (r ≤ 1) && nestOKList cs 2) := rfl

@[simp] lemma nestOK_i_node (x : String) (cs : List Node) (r : Nat) :
    nestOK (.node "i" x cs) r = (decide (r ≤ 2) && nestOKList cs 3) := rfl

@[simp] lemma nestOK_code_node (x : String) (cs : List Node) (r : Nat) :
    nestOK (.node "code" x cs) r = (decide (r ≤ 3) && nestOKList cs 4) := rfl

@[simp] lemma nestOK_text_node (x : String) (cs : List Node) (r : Nat) :
    nestOK (.node "" x cs) r = nestOKList cs r := rfl

@[simp] lemma nestOK_blockquote_node (x : String) (cs : List Node) (r : Nat) :
    nestOK (.node "blockquote" x cs) r = nestOKList cs r := rfl

@[simp] lemma nestOK_span_node (x : String) (cs : List Node) (r : Nat) :
    nestOK (.node "span" x cs) r = nestOKList cs r := rfl

lemma nestOKList_append (xs ys : List Node) (r : Nat) :
    nestOKList (xs ++ ys) r = (nestOKList xs r && nestOKList ys r) := by
  induction xs with
  | nil => simp
  | cons n ns ih => simp [ih, Bool.and_assoc]

lemma nestOK_text_leaf (t : String) (r : Nat) : nestOK (.node "" t []) r = true := by
  simp

lemma nestOK_code_leaf (t : String) (r : Nat) (hr : r ≤ 3) :
    nestOK (.node "code" t []) r = true := by
  simp [hr]

lemma nestOK_span_leaf (t : String) (r : Nat) : nestOK (.node "span" t []) r = true := by
  simp


/-- The nesting order as the claim words it, code outermost: rank 0 for
code, 1 for spoiler, 2 for bold, 3 for italic.  Defined from the claim,
not the source, to be compared with the tree the program builds. -/
def claimFmtRank : String → Option Nat
| "code" => some 0
| "del" => some 1
| "b" => some 2
| "i" => some 3
| _ => none

mutual
/-- The claimed canonical-nesting check: along every root-to-leaf path the
formatting tags must strictly deepen in claimFmtRank order, so code would
have to be outermost and a spoiler element could never be an ancestor of
code content. -/
def claimNestOK : Node → Nat → Bool
| .node tag _ children, r =>
    match claimFmtRank tag with
    | some k => decide (r ≤ k) && claimNestOKList children (k + 1)
    | none => claimNestOKList children r
def claimNestOKList : List Node → Nat → Bool
| [], _ => true
| n :: ns, r => claimNestOK n r && claimNestOKList ns r
end

/-- Well-formedness of the builder state: the insertion-point stack is the
root plus exactly one wrapper frame per set formatting flag, innermost
first in canonical order (italic inside bold inside spoiler), and every
already-built child list respects the canonical nesting rank of its
position. -/
def WF (s : TextState) : Prop :=
  ∃ iw bw dw rw : List Node,
    s.parents =
      (if s.italic then [⟨"i", "", iw⟩] else [])
        ++ (if s.bold then [⟨"b", "", bw⟩] else [])
        ++ (if s.spoiler then [⟨"del", "", dw⟩] else [])
        ++ [⟨"blockquote", "", rw⟩]
    ∧ nestOKList iw 3 = true ∧ nestOKList bw 2 = true
    ∧ nestOKList dw 1 = true ∧ nestOKList rw 0 = true

lemma append_leaf_WF (s : TextState) (n : Node)
    (hn : ∀ r, r ≤ 3 → nestOK n r = true) (h : WF s) : WF (s.append n false) := by
  obtain ⟨iw, bw, dw, rw, hp, h3, h2, h1, h0⟩ := h
  cases hi : s.italic with
  | true =>
      simp only [hi, if_true] at hp
      refine ⟨iw ++ [n], bw, dw, rw, ?_, ?_, h2, h1, h0⟩
      · simp [TextState.append, hp, hi]
      · rw [nestOKList_append]
        simp [h3, hn 3 (by omega)]
  | false =>
      cases hb : s.bold with
      | true =>
          simp only [hi, hb, if_true, if_false, List.nil_append] at hp
          refine ⟨iw, bw ++ [n], dw, rw, ?_, h3, ?_, h1, h0⟩
          · simp [TextState.append, hp, hi, hb]
          · rw [nestOKList_append]
            simp [h2, hn 2 (by omega)]
      | false =>
          cases hsp : s.spoiler with
          | true =>
              simp only [hi, hb, hsp, if_true, if_false, List.nil_append] at hp
              refine ⟨iw, bw, dw ++ [n], rw, ?_, h3, h2, ?_, h0⟩
              · simp [TextState.append, hp, hi, hb, hsp]
              · rw [nestOKList_append]
                simp [h1, hn 1 (by omega)]
          | false =>
              simp only [hi, hb, hsp, if_false, List.nil_append] at hp
              refine ⟨iw, bw, dw, rw ++ [n], ?_, h3, h2, h1, ?_⟩
              · simp [TextState.append, hp, hi, hb, hsp]
              · rw [nestOKList_append]
                simp [h0, hn 0 (by omega)]

lemma append_text_WF (p : List Char) (s : TextState) (h : WF s) :
    WF (append_text p s) :=
  append_leaf_WF s _ (fun r _ => nestOK_text_leaf _ r) h

lemma highlight_code_WF (p : List Char) (s : TextState) (h : WF s) :
    WF (highlight_code p s) :=
  append_leaf_WF s _ (fun r hr => nestOK_code_leaf _ r hr) h


lemma ascend_parents_cons (s : TextState) (f p : Frame) (rest : List Frame)
    (h : s.parents = f :: p :: rest) :
    s.ascend.parents = ⟨p.tag, p.text, p.children ++ [f.toNode]⟩ :: rest := by
  unfold TextState.ascend
  rw [h]

lemma append_true_parents (s : TextState) (n : Node) (h : s.parents ≠ []) :
    (s.append n true).parents = Frame.ofNode n :: s.parents := by
  unfold TextState.append
  cases hp : s.parents with
  | nil => exact absurd hp h
  | cons f rest => simp

lemma italic_toggle_WF (s : TextState) (h : WF s) : WF (italic_toggle s) := by
  obtain ⟨iw, bw, dw, rw, hp, h3, h2, h1, h0⟩ := h
  cases hi : s.italic with
  | false =>
      have hne : s.parents ≠ [] := by rw [hp]; simp
      refine ⟨[], bw, dw, rw, ?_, rfl, h2, h1, h0⟩
      have hres : (italic_toggle s).parents = ⟨"i", "", []⟩ :: s.parents := by
        simp only [italic_toggle, hi, Bool.false_eq_true, if_false]
        exact append_true_parents s _ hne
      rw [hres, hp]
      simp [hi]
  | true =>
      simp only [hi, if_true, List.singleton_append] at hp
      cases hb : s.bold with
      | true =>
          simp only [hb, if_true, List.singleton_append] at hp
          refine ⟨[], bw ++ [.node "i" "" iw], dw, rw, ?_, rfl, ?_, h1, h0⟩
          · have hres : (italic_toggle s).parents
                = ⟨"b", "", bw ++ [.node "i" "" iw]⟩ ::
                    ((if s.spoiler then [⟨"del", "", dw⟩] else [])
                      ++ [⟨"blockquote", "", rw⟩]) := by
              simp only [italic_toggle, hi, if_true]
              exact ascend_parents_cons s _ _ _ hp
            rw [hres]
            simp [hi, hb]
          · rw [nestOKList_append]
            simp [h2, h3]
      | false =>
          simp only [hb, Bool.false_eq_true, if_false, List.nil_append] at hp
          cases hsp : s.spoiler with
          | true =>
              simp only [hsp, if_true, List.singleton_append] at hp
              refine ⟨[], bw, dw ++ [.node "i" "" iw], rw, ?_, rfl, h2, ?_, h0⟩
              · have hres : (italic_toggle s).parents
                    = ⟨"del", "", dw ++ [.node "i" "" iw]⟩ ::
                        [⟨"blockquote", "", rw⟩] := by
                  simp only [italic_toggle, hi, if_true]
                  exact ascend_parents_cons s _ _ _ hp
                rw [hres]
                simp [hi, hb, hsp]
              · rw [nestOKList_append]
                simp [h1, h3]
          | false =>
              simp only [hsp, Bool.false_eq_true, if_false, List.nil_append] at hp
              refine ⟨[], bw, dw, rw ++ [.node "i" "" iw], ?_, rfl, h2, h1, ?_⟩
              · have hres : (italic_toggle s).parents
                    = ⟨"blockquote", "", rw ++ [.node "i" "" iw]⟩ :: [] := by
                  simp only [italic_toggle, hi, if_true]
                  have hp2 : s.parents = ⟨"i", "", iw⟩ :: ⟨"blockquote", "", rw⟩ :: [] := hp
                  exact ascend_parents_cons s _ _ _ hp2
                rw [hres]
                simp [hi, hb, hsp]
              · rw [nestOKList_append]
                simp [h0, h3]


lemma bold_toggle_WF (s : TextState) (h : WF s) : WF (bold_toggle s) := by
  obtain ⟨iw, bw, dw, rw, hp, h3, h2, h1, h0⟩ := h
  cases hi : s.italic with
  | true =>
      simp only [hi, if_true, List.singleton_append] at hp
      cases hb : s.bold with
      | true =>
          simp only [hb, if_true, List.singleton_append] at hp
          cases hsp : s.spoiler with
          | true =>
              simp only [hsp, if_true, List.singleton_append] at hp
              have e1 := ascend_parents_cons s _ _ _ hp
              have e2 := ascend_parents_cons s.ascend _ _ _ e1
              refine ⟨[], [],
                dw ++ [.node "b" "" (bw ++ [.node "i" "" iw])], rw,
                ?_, rfl, rfl, ?_, h0⟩
              · have hres : (bold_toggle s).parents
                    = ⟨"i", "", []⟩ ::
                        ⟨"del", "", dw ++ [.node "b" "" (bw ++ [.node "i" "" iw])]⟩ ::
                        [⟨"blockquote", "", rw⟩] := by
                  simp only [bold_toggle, hi, hb, if_true, ascend_bold, ascend_italic]
                  rw [append_true_parents _ _ (by rw [e2]; simp), e2]
                  rfl
                rw [hres]
                simp [hi, hb, hsp]
              · rw [nestOKList_append]
                simp [h1]
                rw [nestOKList_append]
                simp [h2, h3]
          | false =>
              simp only [hsp, Bool.false_eq_true, if_false, List.nil_append] at hp
              have e1 := ascend_parents_cons s _ _ _ hp
              have e2 := ascend_parents_cons s.ascend _ _ _ e1
              refine ⟨[], [], dw,
                rw ++ [.node "b" "" (bw ++ [.node "i" "" iw])],
                ?_, rfl, rfl, h1, ?_⟩
              · have hres : (bold_toggle s).parents
                    = ⟨"i", "", []⟩ ::
                        [⟨"blockquote", "", rw ++ [.node "b" "" (bw ++ [.node "i" "" iw])]⟩] := by
                  simp only [bold_toggle, hi, hb, if_true, ascend_bold, ascend_italic]
                  rw [append_true_parents _ _ (by rw [e2]; simp), e2]
                  rfl
                rw [hres]
                simp [hi, hb, hsp]
              · rw [nestOKList_append]
                simp [h0]
                rw [nestOKList_append]
                simp [h2, h3]
      | false =>
          simp only [hb, Bool.false_eq_true, if_false, List.nil_append] at hp
          cases hsp : s.spoiler with
          | true =>
              simp only [hsp, if_true, List.singleton_append] at hp
              have e1 := ascend_parents_cons s _ _ _ hp
              refine ⟨[], [], dw ++ [.node "i" "" iw], rw, ?_, rfl, rfl, ?_, h0⟩
              · have hres : (bold_toggle s).parents
                    = ⟨"i", "", []⟩ :: ⟨"b", "", []⟩ ::
                        ⟨"del", "", dw ++ [.node "i" "" iw]⟩ ::
                        [⟨"blockquote", "", rw⟩] := by
                  simp only [bold_toggle, hi, hb, if_true, Bool.false_eq_true,
                    if_false, ascend_bold, ascend_italic, append_italic]
                  rw [append_true_parents _ _ (by
                    rw [append_true_parents _ _ (by rw [e1]; simp), e1]; simp)]
                  rw [append_true_parents _ _ (by rw [e1]; simp), e1]
                  rfl
                rw [hres]
                simp [hi, hb, hsp]
              · rw [nestOKList_append]
                simp [h1, h3]
          | false =>
              simp only [hsp, Bool.false_eq_true, if_false, List.nil_append] at hp
              have hp2 : s.parents = ⟨"i", "", iw⟩ :: ⟨"blockquote", "", rw⟩ :: [] := hp
              have e1 := ascend_parents_cons s _ _ _ hp2
              refine ⟨[], [], dw, rw ++ [.node "i" "" iw], ?_, rfl, rfl, h1, ?_⟩
              · have hres : (bold_toggle s).parents
                    = ⟨"i", "", []⟩ :: ⟨"b", "", []⟩ ::
                        [⟨"blockquote", "", rw ++ [.node "i" "" iw]⟩] := by
                  simp only [bold_toggle, hi, hb, if_true, Bool.false_eq_true,
                    if_false, ascend_bold, ascend_italic, append_italic]
                  rw [append_true_parents _ _ (by
                    rw [append_true_parents _ _ (by rw [e1]; simp), e1]; simp)]
                  rw [append_true_parents _ _ (by rw [e1]; simp), e1]
                  rfl
                rw [hres]
                simp [hi, hb, hsp]
              · rw [nestOKList_append]
                simp [h0, h3]
  | false =>
      cases hb : s.bold with
      | true =>
          simp only [hi, hb, Bool.false_eq_true, if_false, if_true,
            List.nil_append, List.singleton_append] at hp
          cases hsp : s.spoiler with
          | true =>
              simp only [hsp, if_true, List.singleton_append] at hp
              have e1 := ascend_parents_cons s _ _ _ hp
              refine ⟨iw, [], dw ++ [.node "b" "" bw], rw, ?_, h3, rfl, ?_, h0⟩
              · have hres : (bold_toggle s).parents
                    = ⟨"del", "", dw ++ [.node "b" "" bw]⟩ ::
                        [⟨"blockquote", "", rw⟩] := by
                  simp only [bold_toggle, hi, hb, Bool.false_eq_true, if_false,
                    if_true, ascend_bold, ascend_italic]
                  rw [e1]
                  rfl
                rw [hres]
                simp [hi, hb, hsp]
              · rw [nestOKList_append]
                simp [h1, h2]
          | false =>
              simp only [hsp, Bool.false_eq_true, if_false, List.nil_append] at hp
              have hp2 : s.parents = ⟨"b", "", bw⟩ :: ⟨"blockquote", "", rw⟩ :: [] := hp
              have e1 := ascend_parents_cons s _ _ _ hp2
              refine ⟨iw, [], dw, rw ++ [.node "b" "" bw], ?_, h3, rfl, h1, ?_⟩
              · have hres : (bold_toggle s).parents
                    = [⟨"blockquote", "", rw ++ [.node "b" "" bw]⟩] := by
                  simp only [bold_toggle, hi, hb, Bool.false_eq_true, if_false,
                    if_true, ascend_bold, ascend_italic]
                  rw [e1]
                  rfl
                rw [hres]
                simp [hi, hb, hsp]
              · rw [nestOKList_append]
                simp [h0, h2]
      | false =>
          simp only [hi, Bool.false_eq_true, if_false, List.nil_append] at hp
          have hne : s.parents ≠ [] := by
            rw [hp]; cases s.spoiler <;> simp
          refine ⟨iw, [], dw, rw, ?_, h3, rfl, h1, h0⟩
          have hres : (bold_toggle s).parents = ⟨"b", "", []⟩ :: s.parents := by
            simp only [bold_toggle, hi, hb, Bool.false_eq_true, if_false,
              append_italic]
            exact append_true_parents s _ hne
          rw [hres, hp]
          simp [hi, hb]

lemma code_toggle_WF (s : TextState) (h : WF s) : WF (code_toggle s) := by
  obtain ⟨iw, bw, dw, rw, hp, h3, h2, h1, h0⟩ := h
  exact ⟨iw, bw, dw, rw, by simpa using hp, h3, h2, h1, h0⟩


lemma append_true_ne (s : TextState) (n : Node) (h : s.parents ≠ []) :
    (s.append n true).parents ≠ [] := by
  rw [append_true_parents s n h]
  simp

lemma spoiler_toggle_WF (s : TextState) (h : WF s) : WF (spoiler_toggle s) := by
  obtain ⟨iw, bw, dw, rw, hp, h3, h2, h1, h0⟩ := h
  cases hi : s.italic with
  | false =>
      cases hb : s.bold with
      | false =>
          simp only [hi, hb, Bool.false_eq_true, if_false, List.nil_append] at hp
          cases hsp : s.spoiler with
          | false =>
              simp only [hsp, Bool.false_eq_true, if_false, List.nil_append] at hp
              have hne : s.parents ≠ [] := by rw [hp]; simp
              refine ⟨iw, bw, [], rw, ?_, h3, h2, rfl, h0⟩
              have hres : (spoiler_toggle s).parents = ⟨"del", "", []⟩ :: s.parents := by
                simp only [spoiler_toggle, hi, hb, hsp, Bool.false_eq_true, if_false,
                  append_bold, append_italic, append_spoiler]
                exact append_true_parents s _ hne
              rw [hres, hp]
              simp [hi, hb, hsp]
          | true =>
              simp only [hsp, if_true, List.singleton_append] at hp
              have e1 := ascend_parents_cons s _ _ _ hp
              refine ⟨iw, bw, [], rw ++ [.node "del" "" dw], ?_, h3, h2, rfl, ?_⟩
              · have hres : (spoiler_toggle s).parents
                    = [⟨"blockquote", "", rw ++ [.node "del" "" dw]⟩] := by
                  simp only [spoiler_toggle, hi, hb, hsp, Bool.false_eq_true,
                    if_false, if_true, ascend_bold, ascend_italic, ascend_spoiler]
                  rw [e1]
                  rfl
                rw [hres]
                simp [hi, hb, hsp]
              · simp [nestOKList_append, h0, h1]
      | true =>
          simp only [hi, hb, Bool.false_eq_true, if_false, if_true,
            List.nil_append, List.singleton_append] at hp
          cases hsp : s.spoiler with
          | false =>
              simp only [hsp, Bool.false_eq_true, if_false, List.nil_append] at hp
              have hp2 : s.parents = ⟨"b", "", bw⟩ :: ⟨"blockquote", "", rw⟩ :: [] := hp
              have e1 := ascend_parents_cons s _ _ _ hp2
              have n1 : s.ascend.parents ≠ [] := by rw [e1]; simp
              have n2 := append_true_ne s.ascend (.node "del" "" []) n1
              refine ⟨iw, [], [], rw ++ [.node "b" "" bw], ?_, h3, rfl, rfl, ?_⟩
              · have hres : (spoiler_toggle s).parents
                    = ⟨"b", "", []⟩ :: ⟨"del", "", []⟩ ::
                        [⟨"blockquote", "", rw ++ [.node "b" "" bw]⟩] := by
                  simp only [spoiler_toggle, hi, hb, hsp, Bool.false_eq_true,
                    if_false, if_true, ascend_bold, ascend_italic, ascend_spoiler,
                    append_bold, append_italic, append_spoiler]
                  rw [append_true_parents _ _ n2, append_true_parents _ _ n1, e1]
                  rfl
                rw [hres]
                simp [hi, hb, hsp]
              · simp [nestOKList_append, h0, h2]
          | true =>
              simp only [hsp, if_true, List.singleton_append] at hp
              have e1 := ascend_parents_cons s _ _ _ hp
              have e2 := ascend_parents_cons s.ascend _ _ _ e1
              have n2 : s.ascend.ascend.parents ≠ [] := by rw [e2]; simp
              refine ⟨iw, [], [], rw ++ [.node "del" "" (dw ++ [.node "b" "" bw])],
                ?_, h3, rfl, rfl, ?_⟩
              · have hres : (spoiler_toggle s).parents
                    = ⟨"b", "", []⟩ ::
                        [⟨"blockquote", "",
                          rw ++ [.node "del" "" (dw ++ [.node "b" "" bw])]⟩] := by
                  simp only [spoiler_toggle, hi, hb, hsp, Bool.false_eq_true,
                    if_false, if_true, ascend_bold, ascend_italic, ascend_spoiler,
                    append_bold, append_italic, append_spoiler]
                  rw [append_true_parents _ _ n2, e2]
                  rfl
                rw [hres]
                simp [hi, hb, hsp]
              · simp [nestOKList_append, h0, h1, h2]
  | true =>
      simp only [hi, if_true, List.singleton_append] at hp
      cases hb : s.bold with
      | false =>
          simp only [hb, Bool.false_eq_true, if_false, List.nil_append] at hp
          cases hsp : s.spoiler with
          | false =>
              simp only [hsp, Bool.false_eq_true, if_false, List.nil_append] at hp
              have hp2 : s.parents = ⟨"i", "", iw⟩ :: ⟨"blockquote", "", rw⟩ :: [] := hp
              have e1 := ascend_parents_cons s _ _ _ hp2
              have n1 : s.ascend.parents ≠ [] := by rw [e1]; simp
              have n2 := append_true_ne s.ascend (.node "del" "" []) n1
              refine ⟨[], bw, [], rw ++ [.node "i" "" iw], ?_, rfl, h2, rfl, ?_⟩
              · have hres : (spoiler_toggle s).parents
                    = ⟨"i", "", []⟩ :: ⟨"del", "", []⟩ ::
                        [⟨"blockquote", "", rw ++ [.node "i" "" iw]⟩] := by
                  simp only [spoiler_toggle, hi, hb, hsp, Bool.false_eq_true,
                    if_false, if_true, ascend_bold, ascend_italic, ascend_spoiler,
                    append_bold, append_italic, append_spoiler]
                  rw [append_true_parents _ _ n2, append_true_parents _ _ n1, e1]
                  rfl
                rw [hres]
                simp [hi, hb, hsp]
              · simp [nestOKList_append, h0, h3]
          | true =>
              simp only [hsp, if_true, List.singleton_append] at hp
              have e1 := ascend_parents_cons s _ _ _ hp
              have e2 := ascend_parents_cons s.ascend _ _ _ e1
              have n2 : s.ascend.ascend.parents ≠ [] := by rw [e2]; simp
              refine ⟨[], bw, [], rw ++ [.node "del" "" (dw ++ [.node "i" "" iw])],
                ?_, rfl, h2, rfl, ?_⟩
              · have hres : (spoiler_toggle s).parents
                    = ⟨"i", "", []⟩ ::
                        [⟨"blockquote", "",
                          rw ++ [.node "del" "" (dw ++ [.node "i" "" iw])]⟩] := by
                  simp only [spoiler_toggle, hi, hb, hsp, Bool.false_eq_true,
                    if_false, if_true, ascend_bold, ascend_italic, ascend_spoiler,
                    append_bold, append_italic, append_spoiler]
                  rw [append_true_parents _ _ n2, e2]
                  rfl
                rw [hres]
                simp [hi, hb, hsp]
              · simp [nestOKList_append, h0, h1, h3]
      | true =>
          simp only [hb, if_true, List.singleton_append] at hp
          cases hsp : s.spoiler with
          | false =>
              simp only [hsp, Bool.false_eq_true, if_false, List.nil_append] at hp
              have e1 := ascend_parents_cons s _ _ _ hp
              have e2 := ascend_parents_cons s.ascend _ _ _ e1
              have n2 : s.ascend.ascend.parents ≠ [] := by rw [e2]; simp
              have n3 := append_true_ne s.ascend.ascend (.node "del" "" []) n2
              have n4 := append_true_ne _ (.node "b" "" []) n3
              refine ⟨[], [], [],
                rw ++ [.node "b" "" (bw ++ [.node "i" "" iw])], ?_, rfl, rfl, rfl, ?_⟩
              · have hres : (spoiler_toggle s).parents
                    = ⟨"i", "", []⟩ :: ⟨"b", "", []⟩ :: ⟨"del", "", []⟩ ::
                        [⟨"blockquote", "",
                          rw ++ [.node "b" "" (bw ++ [.node "i" "" iw])]⟩] := by
                  simp only [spoiler_toggle, hi, hb, hsp, Bool.false_eq_true,
                    if_false, if_true, ascend_bold, ascend_italic, ascend_spoiler,
                    append_bold, append_italic, append_spoiler]
                  rw [append_true_parents _ _ n4, append_true_parents _ _ n3,
                    append_true_parents _ _ n2, e2]
                  rfl
                rw [hres]
                simp [hi, hb, hsp]
              · simp [nestOKList_append, h0, h2, h3]
          | true =>
              simp only [hsp, if_true, List.singleton_append] at hp
              have e1 := ascend_parents_cons s _ _ _ hp
              have e2 := ascend_parents_cons s.ascend _ _ _ e1
              have e3 := ascend_parents_cons s.ascend.ascend _ _ _ e2
              have n3 : s.ascend.ascend.ascend.parents ≠ [] := by rw [e3]; simp
              have n4 := append_true_ne s.ascend.ascend.ascend (.node "b" "" []) n3
              refine ⟨[], [], [],
                rw ++ [.node "del" ""
                  (dw ++ [.node "b" "" (bw ++ [.node "i" "" iw])])], ?_, rfl, rfl, rfl, ?_⟩
              · have hres : (spoiler_toggle s).parents
                    = ⟨"i", "", []⟩ :: ⟨"b", "", []⟩ ::
                        [⟨"blockquote", "",
                          rw ++ [.node "del" ""
                            (dw ++ [.node "b" "" (bw ++ [.node "i" "" iw])])]⟩] := by
                  simp only [spoiler_toggle, hi, hb, hsp, Bool.false_eq_true,
                    if_false, if_true, ascend_bold, ascend_italic, ascend_spoiler,
                    append_bold, append_italic, append_spoiler]
                  rw [append_true_parents _ _ n4, append_true_parents _ _ n3, e3]
                  rfl
                rw [hres]
                simp [hi, hb, hsp]
              · simp [nestOKList_append, h0, h1, h2, h3]


lemma parse_italics_WF (fn : List Char → TextState → TextState)
    (hfn : ∀ p t, WF t → WF (fn p t)) (frag : List Char) (st : TextState)
    (h : WF st) : WF (parse_italics fn frag st) := by
  unfold parse_italics
  rw [parse_string_eq_runPieces _ (by simp)]
  exact runPieces_pres WF _ _ hfn (fun t ht => italic_toggle_WF t ht) _ st h

lemma parse_bolds_WF (fn : List Char → TextState → TextState)
    (hfn : ∀ p t, WF t → WF (fn p t)) (frag : List Char) (st : TextState)
    (h : WF st) : WF (parse_bolds fn frag st) := by
  unfold parse_bolds
  rw [parse_string_eq_runPieces _ (by simp)]
  exact runPieces_pres WF _ _
    (fun p t ht => parse_italics_WF fn hfn p t ht)
    (fun t ht => bold_toggle_WF t ht) _ st h

lemma parse_spoilers_WF (fn : List Char → TextState → TextState)
    (hfn : ∀ p t, WF t → WF (fn p t)) (frag : List Char) (st : TextState)
    (h : WF st) : WF (parse_spoilers fn frag st) := by
  unfold parse_spoilers
  rw [parse_string_eq_runPieces _ (by simp)]
  exact runPieces_pres WF _ _
    (fun p t ht => parse_bolds_WF fn hfn p t ht)
    (fun t ht => spoiler_toggle_WF t ht) _ st h

lemma code_filler_WF (fn : List Char → TextState → TextState)
    (hfn : ∀ p t, WF t → WF (fn p t)) (frag : List Char) (st : TextState)
    (h : WF st) : WF (code_filler fn frag st) := by
  unfold code_filler
  cases hc : st.code with
  | true =>
      simp only [hc, if_true]
      simp only [ne_eq, not_true_eq_false, if_false, ite_false]
      exact highlight_code_WF _ _ h
  | false =>
      simp only [hc, Bool.false_eq_true, if_false]
      exact parse_spoilers_WF fn hfn frag st h

lemma parse_code_WF (fn : List Char → TextState → TextState)
    (hfn : ∀ p t, WF t → WF (fn p t)) (frag : List Char) (st : TextState)
    (h : WF st) : WF (parse_code fn frag st) := by
  unfold parse_code
  rw [parse_string_eq_runPieces _ (by simp)]
  exact runPieces_pres WF _ _
    (fun p t ht => code_filler_WF fn hfn p t ht)
    (fun t ht => code_toggle_WF t ht) _ st h

lemma finalize_WF (s : TextState) (h : WF s) : nestOK (finalize s) 0 = true := by
  obtain ⟨iw, bw, dw, rw, hp, h3, h2, h1, h0⟩ := h
  cases hi : s.italic <;> cases hb : s.bold <;> cases hsp : s.spoiler <;>
    simp only [hi, hb, hsp, if_true, if_false, Bool.false_eq_true,
      List.nil_append, List.singleton_append] at hp <;>
    simp [finalize, hp, collapse, Frame.toNode, nestOKList_append, h0, h1, h2, h3]

lemma init_WF : WF init_state := by
  refine ⟨[], [], [], [], ?_, rfl, rfl, rfl, rfl⟩
  simp [init_state, reset_state, Frame.ofNode]

/-- C1 amended: for every input fragment fed through the formatting
pipeline (parse_code, then parse_spoilers, then parse_bolds, then
parse_italics), the resulting tree's tag ancestry at every position is
canonical among the wrapper levels: an italic element is never an ancestor
of a bold element, a bold element is never an ancestor of a spoiler
element, and no formatting element sits inside highlighted code content,
whatever order the delimiters appear in.  The code level, however, builds
no wrapper element — code content is emitted as a leaf at the current
insertion point — so code content may appear inside open spoiler, bold or
italic wrappers, and the claimed code-outermost tree order does not hold
(see the counterexample). -/
theorem parse_pipeline_canonical_nesting (frag : List Char) :
    nestOK (finalize (parse_code append_text frag init_state)) 0 = true :=
  finalize_WF _
    (parse_code_WF append_text (fun p t ht => append_text_WF p t ht)
      frag init_state init_WF)

/-- C1 counterexample: on a code span nested inside a spoiler span the
pipeline produces a del element as an ancestor of the highlighted code
content, so the checker that encodes the claimed code-outermost canonical
order rejects the tree the program builds, at this explicit input. -/
theorem code_outermost_counterexample :
    claimNestOK
        (finalize (parse_code append_text
          ('*' :: '*' :: bq :: bq :: 'x' :: bq :: bq :: '*' :: '*' :: [])
          init_state)) 0
      = false
    ∧ finalize (parse_code append_text
          ('*' :: '*' :: bq :: bq :: 'x' :: bq :: bq :: '*' :: '*' :: [])
          init_state)
      = Node.node "blockquote" ""
          [Node.node "" "" [],
           Node.node "del" ""
             [Node.node "" "" [], Node.node "code" "x" [], Node.node "" "" []],
           Node.node "" "" []] :=
  ⟨rfl, rfl⟩


/-- Number of currently-set wrapper flags (spoiler, bold, italic). -/
def numFlags (s : TextState) : Nat :=
  (cond s.spoiler 1 0) + (cond s.bold 1 0) + (cond s.italic 1 0)

/-- One complete toggle invocation of one of the four formatting levels. -/
inductive Toggle where
| code | spoiler | bold | italic

def applyToggle : Toggle → TextState → TextState
| .code => code_toggle
| .spoiler => spoiler_toggle
| .bold => bold_toggle
| .italic => italic_toggle

def applyToggles : List Toggle → TextState → TextState
| [], s => s
| t :: ts, s => applyToggles ts (applyToggle t s)

lemma toggle_depth_step (t : Toggle) (s : TextState) (d : Nat) (hd : 1 ≤ d)
    (hlen : s.parents.length = d + numFlags s) :
    (applyToggle t s).parents.length = d + numFlags (applyToggle t s) := by
  cases t with
  | code =>
      show (code_toggle s).parents.length = d + numFlags (code_toggle s)
      simpa [numFlags] using hlen
  | italic =>
      show (italic_toggle s).parents.length = d + numFlags (italic_toggle s)
      cases hi : s.italic with
      | true =>
          have hres : (italic_toggle s).parents.length = s.parents.length - 1 := by
            simp only [italic_toggle, hi, if_true]
            exact ascend_length s
          rw [hres, hlen]
          simp [numFlags, hi] <;> omega
      | false =>
          have hne : s.parents ≠ [] := by
            apply List.length_pos.mp
            rw [hlen]
            omega
          have hres : (italic_toggle s).parents.length = s.parents.length + 1 := by
            simp only [italic_toggle, hi, Bool.false_eq_true, if_false]
            exact append_true_length s _ hne
          rw [hres, hlen]
          simp [numFlags, hi] <;> omega
  | bold =>
      show (bold_toggle s).parents.length = d + numFlags (bold_toggle s)
      cases hi : s.italic with
      | true =>
          cases hb : s.bold with
          | true =>
              have hn : numFlags s = (cond s.spoiler 1 0) + 1 + 1 := by
                simp [numFlags, hi, hb]
              have ne2 : s.ascend.ascend.parents ≠ [] := by
                apply List.length_pos.mp
                rw [ascend_length, ascend_length, hlen, hn]
                omega
              have hres : (bold_toggle s).parents.length
                  = s.parents.length - 1 - 1 + 1 := by
                simp only [bold_toggle, hi, hb, if_true, ascend_bold, ascend_italic]
                rw [append_true_length _ _ ne2, ascend_length, ascend_length]
              rw [hres, hlen, hn]
              simp [numFlags, hi, hb] <;> omega
          | false =>
              have hn : numFlags s = (cond s.spoiler 1 0) + 0 + 1 := by
                simp [numFlags, hi, hb]
              have ne1 : s.ascend.parents ≠ [] := by
                apply List.length_pos.mp
                rw [ascend_length, hlen, hn]
                omega
              have ne2 := append_true_ne s.ascend (.node "b" "" []) ne1
              have hres : (bold_toggle s).parents.length
                  = s.parents.length - 1 + 1 + 1 := by
                simp only [bold_toggle, hi, hb, if_true, Bool.false_eq_true,
                  if_false, ascend_bold, ascend_italic, append_bold, append_italic]
                rw [append_true_length _ _ ne2, append_true_length _ _ ne1,
                  ascend_length]
              rw [hres, hlen, hn]
              simp [numFlags, hi, hb] <;> omega
      | false =>
          cases hb : s.bold with
          | true =>
              have hres : (bold_toggle s).parents.length = s.parents.length - 1 := by
                simp only [bold_toggle, hi, hb, if_true, Bool.false_eq_true,
                  if_false, ascend_bold, ascend_italic]
                exact ascend_length s
              rw [hres, hlen]
              simp [numFlags, hi, hb] <;> omega
          | false =>
              have hne : s.parents ≠ [] := by
                apply List.length_pos.mp
                rw [hlen]
                omega
              have hres : (bold_toggle s).parents.length = s.parents.length + 1 := by
                simp only [bold_toggle, hi, hb, Bool.false_eq_true, if_false,
                  append_bold, append_italic]
                exact append_true_length s _ hne
              rw [hres, hlen]
              simp [numFlags, hi, hb] <;> omega
  | spoiler =>
      show (spoiler_toggle s).parents.length = d + numFlags (spoiler_toggle s)
      cases hi : s.italic with
      | false =>
          cases hb : s.bold with
          | false =>
              cases hsp : s.spoiler with
              | false =>
                  have hne : s.parents ≠ [] := by
                    apply List.length_pos.mp
                    rw [hlen]
                    omega
                  have hres : (spoiler_toggle s).parents.length
                      = s.parents.length + 1 := by
                    simp only [spoiler_toggle, hi, hb, hsp, Bool.false_eq_true,
                      if_false, append_bold, append_italic, append_spoiler]
                    exact append_true_length s _ hne
                  rw [hres, hlen]
                  simp [numFlags, hi, hb, hsp] <;> omega
              | true =>
                  have hres : (spoiler_toggle s).parents.length
                      = s.parents.length - 1 := by
                    simp only [spoiler_toggle, hi, hb, hsp, Bool.false_eq_true,
                      if_false, if_true, ascend_bold, ascend_italic, ascend_spoiler]
                    exact ascend_length s
                  rw [hres, hlen]
                  simp [numFlags, hi, hb, hsp] <;> omega
          | true =>
              cases hsp : s.spoiler with
              | false =>
                  have hn : numFlags s = 0 + 1 + 0 := by
                    simp [numFlags, hi, hb, hsp]
                  have ne1 : s.ascend.parents ≠ [] := by
                    apply List.length_pos.mp
                    rw [ascend_length, hlen, hn]
                    omega
                  have ne2 := append_true_ne s.ascend (.node "del" "" []) ne1
                  have hres : (spoiler_toggle s).parents.length
                      = s.parents.length - 1 + 1 + 1 := by
                    simp only [spoiler_toggle, hi, hb, hsp, Bool.false_eq_true,
                      if_false, if_true, ascend_bold, ascend_italic, ascend_spoiler,
                      append_bold, append_italic, append_spoiler]
                    rw [append_true_length _ _ ne2, append_true_length _ _ ne1,
                      ascend_length]
                  rw [hres, hlen, hn]
                  simp [numFlags, hi, hb, hsp] <;> omega
              | true =>
                  have hn : numFlags s = 1 + 1 + 0 := by
                    simp [numFlags, hi, hb, hsp]
                  have ne2 : s.ascend.ascend.parents ≠ [] := by
                    apply List.length_pos.mp
                    rw [ascend_length, ascend_length, hlen, hn]
                    omega
                  have hres : (spoiler_toggle s).parents.length
                      = s.parents.length - 1 - 1 + 1 := by
                    simp only [spoiler_toggle, hi, hb, hsp, Bool.false_eq_true,
                      if_false, if_true, ascend_bold, ascend_italic, ascend_spoiler,
                      append_bold, append_italic, append_spoiler]
                    rw [append_true_length _ _ ne2, ascend_length, ascend_length]
                  rw [hres, hlen, hn]
                  simp [numFlags, hi, hb, hsp] <;> omega
      | true =>
          cases hb : s.bold with
          | false =>
              cases hsp : s.spoiler with
              | false =>
                  have hn : numFlags s = 0 + 0 + 1 := by
                    simp [numFlags, hi, hb, hsp]
                  have ne1 : s.ascend.parents ≠ [] := by
                    apply List.length_pos.mp
                    rw [ascend_length, hlen, hn]
                    omega
                  have ne2 := append_true_ne s.ascend (.node "del" "" []) ne1
                  have hres : (spoiler_toggle s).parents.length
                      = s.parents.length - 1 + 1 + 1 := by
                    simp only [spoiler_toggle, hi, hb, hsp, Bool.false_eq_true,
                      if_false, if_true, ascend_bold, ascend_italic, ascend_spoiler,
                      append_bold, append_italic, append_spoiler]
                    rw [append_true_length _ _ ne2, append_true_length _ _ ne1,
                      ascend_length]
                  rw [hres, hlen, hn]
                  simp [numFlags, hi, hb, hsp] <;> omega
              | true =>
                  have hn : numFlags s = 1 + 0 + 1 := by
                    simp [numFlags, hi, hb, hsp]
                  have ne2 : s.ascend.ascend.parents ≠ [] := by
                    apply List.length_pos.mp
                    rw [ascend_length, ascend_length, hlen, hn]
                    omega
                  have hres : (spoiler_toggle s).parents.length
                      = s.parents.length - 1 - 1 + 1 := by
                    simp only [spoiler_toggle, hi, hb, hsp, Bool.false_eq_true,
                      if_false, if_true, ascend_bold, ascend_italic, ascend_spoiler,
                      append_bold, append_italic, append_spoiler]
                    rw [append_true_length _ _ ne2, ascend_length, ascend_length]
                  rw [hres, hlen, hn]
                  simp [numFlags, hi, hb, hsp] <;> omega
          | true =>
              cases hsp : s.spoiler with
              | false =>
                  have hn : numFlags s = 0 + 1 + 1 := by
                    simp [numFlags, hi, hb, hsp]
                  have ne2 : s.ascend.ascend.parents ≠ [] := by
                    apply List.length_pos.mp
                    rw [ascend_length, ascend_length, hlen, hn]
                    omega
                  have ne3 := append_true_ne s.ascend.ascend (.node "del" "" []) ne2
                  have ne4 := append_true_ne _ (.node "b" "" []) ne3
                  have hres : (spoiler_toggle s).parents.length
                      = s.parents.length - 1 - 1 + 1 + 1 + 1 := by
                    simp only [spoiler_toggle, hi, hb, hsp, Bool.false_eq_true,
                      if_false, if_true, ascend_bold, ascend_italic, ascend_spoiler,
                      append_bold, append_italic, append_spoiler]
                    rw [append_true_length _ _ ne4, append_true_length _ _ ne3,
                      append_true_length _ _ ne2, ascend_length, ascend_length]
                  rw [hres, hlen, hn]
                  simp [numFlags, hi, hb, hsp] <;> omega
              | true =>
                  have hn : numFlags s = 1 + 1 + 1 := by
                    simp [numFlags, hi, hb, hsp]
                  have ne3 : s.ascend.ascend.ascend.parents ≠ [] := by
                    apply List.length_pos.mp
                    rw [ascend_length, ascend_length, ascend_length, hlen, hn]
                    omega
                  have ne4 := append_true_ne s.ascend.ascend.ascend
                    (.node "b" "" []) ne3
                  have hres : (spoiler_toggle s).parents.length
                      = s.parents.length - 1 - 1 - 1 + 1 + 1 := by
                    simp only [spoiler_toggle, hi, hb, hsp, Bool.false_eq_true,
                      if_false, if_true, ascend_bold, ascend_italic, ascend_spoiler,
                      append_bold, append_italic, append_spoiler]
                    rw [append_true_length _ _ ne4, append_true_length _ _ ne3,
                      ascend_length, ascend_length, ascend_length]
                  rw [hres, hlen, hn]
                  simp [numFlags, hi, hb, hsp] <;> omega

lemma applyToggles_depth (ts : List Toggle) :
    ∀ (s : TextState) (d : Nat), 1 ≤ d → s.parents.length = d + numFlags s →
      (applyToggles ts s).parents.length = d + numFlags (applyToggles ts s) := by
  induction ts with
  | nil => intro s d _ h; exact h
  | cons t ts2 ih =>
      intro s d hd h
      exact ih (applyToggle t s) d hd (toggle_depth_step t s d hd h)


lemma parse_italics_pres_spoiler (fn : List Char → TextState → TextState)
    (hfn : ∀ p t, (fn p t).spoiler = t.spoiler) (frag : List Char)
    (st : TextState) :
    (parse_italics fn frag st).spoiler = st.spoiler := by
  unfold parse_italics
  rw [parse_string_eq_runPieces _ (by simp)]
  exact runPieces_pres (fun t => t.spoiler = st.spoiler) fn italic_toggle
    (fun p t ht => by
      show (fn p t).spoiler = st.spoiler
      rw [hfn p t]
      exact ht)
    (fun t ht => by
      show (italic_toggle t).spoiler = st.spoiler
      rw [italic_toggle_spoiler]
      exact ht) _ st rfl

lemma parse_bolds_pres_spoiler (fn : List Char → TextState → TextState)
    (hfn : ∀ p t, (fn p t).spoiler = t.spoiler) (frag : List Char)
    (st : TextState) :
    (parse_bolds fn frag st).spoiler = st.spoiler := by
  unfold parse_bolds
  rw [parse_string_eq_runPieces _ (by simp)]
  exact runPieces_pres (fun t => t.spoiler = st.spoiler) (parse_italics fn)
    bold_toggle
    (fun p t ht => by
      show (parse_italics fn p t).spoiler = st.spoiler
      rw [parse_italics_pres_spoiler fn hfn p t]
      exact ht)
    (fun t ht => by
      show (bold_toggle t).spoiler = st.spoiler
      rw [bold_toggle_spoiler]
      exact ht) _ st rfl

lemma parse_spoilers_parity (fn : List Char → TextState → TextState)
    (hfn : ∀ p t, (fn p t).spoiler = t.spoiler) (frag : List Char)
    (st : TextState) :
    (parse_spoilers fn frag st).spoiler
      = ((((splitPieces ['*', '*'] frag).length - 1) % 2 == 1) ^^ st.spoiler) := by
  unfold parse_spoilers
  rw [parse_string_eq_runPieces _ (by simp)]
  exact runPieces_parity _ _
    (fun p t => parse_bolds_pres_spoiler fn hfn p t)
    (fun t => spoiler_toggle_spoiler t) _ st (splitPieces_ne_nil _ _)

/-- The canonical tag sequence of the currently open wrapper elements,
innermost first. -/
def open_tags (s : TextState) : List String :=
  (if s.italic then ["i"] else []) ++ (if s.bold then ["b"] else [])
    ++ (if s.spoiler then ["del"] else [])

lemma WF_tags (s : TextState) (h : WF s) :
    s.parents.map Frame.tag = open_tags s ++ ["blockquote"] := by
  obtain ⟨iw, bw, dw, rw, hp, -, -, -, -⟩ := h
  rw [hp]
  unfold open_tags
  cases s.italic <;> cases s.bold <;> cases s.spoiler <;> simp [Frame.tag]


/-- C2: parse_string repeatedly finds the next delimiter occurrence, applies
the filler to the text strictly before it, invokes the toggle once, and
continues after it; with no occurrence left it applies the filler to the
whole remainder and stops.  Equivalently it is the interleaved fold over the
k + 1 pieces split at the k occurrences, invoking the toggle exactly k times
and the filler exactly k + 1 times, left to right. -/
theorem parse_string_splits_and_counts {σ : Type}
    (filler : List Char → σ → σ) (on_match : σ → σ)
    (sep frag : List Char) (st : σ) (hs : sep ≠ []) :
    parse_string sep filler on_match frag st
        = runPieces filler on_match (splitPieces sep frag) st
      ∧ eventLog sep frag = pieceEvents (splitPieces sep frag)
      ∧ (eventLog sep frag).countP Event.isTog
          = (splitPieces sep frag).length - 1
      ∧ (eventLog sep frag).countP Event.isFill
          = (splitPieces sep frag).length :=
  ⟨parse_string_eq_runPieces sep hs filler on_match frag st,
   eventLog_eq sep frag hs,
   by
     rw [eventLog_eq sep frag hs]
     exact pieceEvents_countP_tog _ (splitPieces_ne_nil sep frag),
   by
     rw [eventLog_eq sep frag hs]
     exact pieceEvents_countP_fill _⟩

theorem parse_string_splits_and_counts_witness :
    (['*', '*'] : List Char) ≠ []
      ∧ (parse_string ['*', '*'] (fun p (n : Nat) => n + p.length) Nat.succ
            "a**b**".data 0
          = runPieces (fun p (n : Nat) => n + p.length) Nat.succ
              (splitPieces ['*', '*'] "a**b**".data) 0
        ∧ eventLog ['*', '*'] "a**b**".data
            = pieceEvents (splitPieces ['*', '*'] "a**b**".data)
        ∧ (eventLog ['*', '*'] "a**b**".data).countP Event.isTog
            = (splitPieces ['*', '*'] "a**b**".data).length - 1
        ∧ (eventLog ['*', '*'] "a**b**".data).countP Event.isFill
            = (splitPieces ['*', '*'] "a**b**".data).length) :=
  ⟨by decide,
   parse_string_splits_and_counts (fun p (n : Nat) => n + p.length) Nat.succ
     ['*', '*'] "a**b**".data 0 (by decide)⟩

/-- C3: at the failing input, the quote character leading a fragment inside
an open code span is stripped, but no escaped quote text is re-emitted:
num_quotes stays 0 in the source (the stripping loop never increments it),
so the span-emitting branch is dead and the tree holds only the stripped
code leaf. -/
theorem code_quote_strip_no_reemission :
    finalize (parse_code append_text (bq :: bq :: '>' :: 'x' :: []) init_state)
        = Node.node "blockquote" "" [Node.node "" "" [], Node.node "code" "x" []]
      ∧ strip_quotes ('>' :: 'x' :: []) = ['x'] :=
  ⟨rfl, rfl⟩

/-- C4 counterexample: calling ascend with only the root entry on the stack
does not fail fatally; it silently pops the root, returning normally with
an empty stack. -/
theorem ascend_root_counterexample :
    init_state.parents.length = 1 ∧ init_state.ascend.parents = [] :=
  ⟨rfl, rfl⟩

/-- C4 amended: ascend unconditionally pops the top entry of the stack: for
every stack with more than one entry it pops exactly the top entry, and
when only the root remains it silently pops the root, leaving an empty
stack, with no fatal failure. -/
theorem ascend_pops_top (s t : TextState) (f p : Frame) (rest : List Frame)
    (h : s.parents = f :: p :: rest) (ht : t.parents.length = 1) :
    s.ascend.parents.length = s.parents.length - 1
      ∧ s.ascend.parents.map Frame.tag = (s.parents.map Frame.tag).tail
      ∧ t.ascend.parents = [] := by
  refine ⟨ascend_length s, ascend_tags s, ?_⟩
  unfold TextState.ascend
  cases hp : t.parents with
  | nil => rfl
  | cons g rest2 =>
      cases rest2 with
      | nil => rfl
      | cons g2 rest3 =>
          rw [hp] at ht
          simp at ht

/-- A state with bold and italic spans open and a spoiler not yet open. -/
def open_state_example : TextState :=
  { bold := true, italic := true,
    parents := [⟨"i", "", []⟩, ⟨"b", "", []⟩, ⟨"blockquote", "", []⟩] }

/-- A state whose stack has exactly two entries. -/
def two_frame_state : TextState :=
  { parents := [⟨"del", "", []⟩, ⟨"blockquote", "", []⟩] }

theorem ascend_pops_top_witness :
    (two_frame_state.parents
        = ⟨"del", "", []⟩ :: ⟨"blockquote", "", []⟩ :: []
      ∧ init_state.parents.length = 1)
    ∧ (two_frame_state.ascend.parents.length
          = two_frame_state.parents.length - 1
      ∧ two_frame_state.ascend.parents.map Frame.tag
          = (two_frame_state.parents.map Frame.tag).tail
      ∧ init_state.ascend.parents = []) :=
  ⟨⟨rfl, rfl⟩, ascend_pops_top two_frame_state init_state _ _ _ rfl rfl⟩

/-- C5: a level's toggle leaves the boolean flags of all inner levels
unchanged — the spoiler toggle flips only the spoiler flag while bold and
italic keep their values, and the bold toggle flips only the bold flag
while italic keeps its value; on a well-formed stack, the previously-open
inner levels are ascended out of innermost first and re-opened in the same
canonical relative order, so the open-wrapper tag sequence stays canonical
after the toggle. -/
theorem toggle_inner_frame_effect (s : TextState) :
    ((spoiler_toggle s).bold = s.bold ∧ (spoiler_toggle s).italic = s.italic
      ∧ (spoiler_toggle s).spoiler = !s.spoiler
      ∧ (bold_toggle s).italic = s.italic ∧ (bold_toggle s).bold = !s.bold)
    ∧ (WF s →
        (spoiler_toggle s).parents.map Frame.tag
            = open_tags (spoiler_toggle s) ++ ["blockquote"]
        ∧ (bold_toggle s).parents.map Frame.tag
            = open_tags (bold_toggle s) ++ ["blockquote"]) := by
  refine ⟨⟨by simp, by simp, by simp, by simp, by simp⟩, fun h => ⟨?_, ?_⟩⟩
  · exact WF_tags _ (spoiler_toggle_WF s h)
  · exact WF_tags _ (bold_toggle_WF s h)

theorem toggle_inner_frame_effect_witness :
    (((spoiler_toggle open_state_example).bold = open_state_example.bold
        ∧ (spoiler_toggle open_state_example).italic = open_state_example.italic
        ∧ (spoiler_toggle open_state_example).spoiler
            = !open_state_example.spoiler
        ∧ (bold_toggle open_state_example).italic = open_state_example.italic
        ∧ (bold_toggle open_state_example).bold = !open_state_example.bold))
    ∧ ((spoiler_toggle open_state_example).parents.map Frame.tag
          = open_tags (spoiler_toggle open_state_example) ++ ["blockquote"]
      ∧ (bold_toggle open_state_example).parents.map Frame.tag
          = open_tags (bold_toggle open_state_example) ++ ["blockquote"]) :=
  ⟨(toggle_inner_frame_effect open_state_example).1,
   (toggle_inner_frame_effect open_state_example).2
     ⟨[], [], [], [], rfl, rfl, rfl, rfl, rfl⟩⟩

/-- C6: toggling any one of the four formatting levels twice in succession
returns that level's flag to its value before the first invocation, and a
fragment with an even number of one delimiter produces balanced,
non-overlapping spans of that level, as the explicit tree for the spoiler
example shows. -/
theorem toggle_involution (s : TextState) :
    (spoiler_toggle (spoiler_toggle s)).spoiler = s.spoiler
    ∧ (bold_toggle (bold_toggle s)).bold = s.bold
    ∧ (italic_toggle (italic_toggle s)).italic = s.italic
    ∧ (code_toggle (code_toggle s)).code = s.code
    ∧ finalize (parse_code append_text "**x**y**z**".data init_state)
        = Node.node "blockquote" ""
            [Node.node "" "" [], Node.node "del" "" [Node.node "" "x" []],
             Node.node "" "y" [], Node.node "del" "" [Node.node "" "z" []],
             Node.node "" "" []]
    ∧ (parse_code append_text "**x**y**z**".data init_state).spoiler = false := by
  refine ⟨by simp, by simp, by simp, by simp, rfl, rfl⟩

/-- C7: unmatched delimiters never take an error path: every scan completes,
the spoiler flag after a scan is the starting flag xor the parity of the
delimiter count, so an unmatched trailing delimiter leaves the flag set at
end of input; a subsequent scan run from that carried-over state closes the
span, as the unterminated-spoiler example shows. -/
theorem unmatched_delimiters_persist (frag : List Char) (st : TextState) :
    (parse_spoilers append_text frag st).spoiler
        = ((((splitPieces ['*', '*'] frag).length - 1) % 2 == 1) ^^ st.spoiler)
    ∧ (parse_spoilers append_text "**unterminated".data init_state).spoiler
        = true
    ∧ (parse_spoilers append_text "more text**".data
          (parse_spoilers append_text "**unterminated".data init_state)).spoiler
        = false
    ∧ finalize (parse_spoilers append_text "more text**".data
          (parse_spoilers append_text "**unterminated".data init_state))
        = Node.node "blockquote" ""
            [Node.node "" "" [],
             Node.node "del" ""
               [Node.node "" "unterminated" [], Node.node "" "more text" []],
             Node.node "" "" []] :=
  ⟨parse_spoilers_parity append_text (fun p t => append_text_spoiler p t) frag st,
   rfl, rfl, rfl⟩

/-- C8: while the code flag is set the spoiler, bold and italic scanners are
bypassed: the code filler equals the highlighter applied to the
quote-stripped fragment, the spoiler, bold and italic flags and the open
wrapper elements are untouched, and delimiters inside a code span come out
as literal text, as the explicit tree shows. -/
theorem code_span_bypasses_formatting (fn : List Char → TextState → TextState)
    (frag : List Char) (s : TextState) (h : s.code = true) :
    code_filler fn frag s = highlight_code (strip_quotes frag) s
    ∧ (code_filler fn frag s).spoiler = s.spoiler
    ∧ (code_filler fn frag s).bold = s.bold
    ∧ (code_filler fn frag s).italic = s.italic
    ∧ (code_filler fn frag s).parents.map Frame.tag = s.parents.map Frame.tag
    ∧ finalize (parse_code append_text
          (bq :: bq :: "**__~~x".data ++ [bq, bq]) init_state)
        = Node.node "blockquote" ""
            [Node.node "" "" [], Node.node "code" "**__~~x" [],
             Node.node "" "" []] := by
  have he : code_filler fn frag s = highlight_code (strip_quotes frag) s := by
    unfold code_filler
    simp [h]
  refine ⟨he, ?_, ?_, ?_, ?_, rfl⟩ <;>
    rw [he] <;> simp [highlight_code, append_false_tags]

/-- A fresh state with an open code span. -/
def code_open_state : TextState :=
  { code := true, parents := [⟨"blockquote", "", []⟩] }

theorem code_span_bypasses_formatting_witness :
    code_open_state.code = true
    ∧ (code_filler append_text ('>' :: 'a' :: []) code_open_state
          = highlight_code (strip_quotes ('>' :: 'a' :: [])) code_open_state
      ∧ (code_filler append_text ('>' :: 'a' :: []) code_open_state).spoiler
          = code_open_state.spoiler
      ∧ (code_filler append_text ('>' :: 'a' :: []) code_open_state).bold
          = code_open_state.bold
      ∧ (code_filler append_text ('>' :: 'a' :: []) code_open_state).italic
          = code_open_state.italic
      ∧ (code_filler append_text ('>' :: 'a' :: []) code_open_state).parents.map
            Frame.tag
          = code_open_state.parents.map Frame.tag
      ∧ finalize (parse_code append_text
            (bq :: bq :: "**__~~x".data ++ [bq, bq]) init_state)
          = Node.node "blockquote" ""
              [Node.node "" "" [], Node.node "code" "**__~~x" [],
               Node.node "" "" []]) :=
  ⟨rfl, code_span_bypasses_formatting append_text ('>' :: 'a' :: [])
    code_open_state rfl⟩

/-- C9: from a state with insertion-point stack depth d and no wrapper flag
set, any sequence of complete toggle invocations of the four levels leaves
the stack depth equal to d plus the number of currently-set flags among
spoiler, bold and italic; the code toggle performs no append or ascend, so
it flips the code flag without changing the stack or the tree. -/
theorem stack_depth_tracks_flags (ts : List Toggle) (s : TextState) (d : Nat)
    (hd : 1 ≤ d) (hlen : s.parents.length = d)
    (hsp : s.spoiler = false) (hb : s.bold = false) (hi : s.italic = false) :
    (applyToggles ts s).parents.length = d + numFlags (applyToggles ts s)
    ∧ (code_toggle s).parents = s.parents
    ∧ (code_toggle s).code = !s.code := by
  refine ⟨?_, rfl, rfl⟩
  apply applyToggles_depth ts s d hd
  rw [hlen]
  simp [numFlags, hsp, hb, hi]

theorem stack_depth_tracks_flags_witness :
    (1 ≤ 1 ∧ init_state.parents.length = 1 ∧ init_state.spoiler = false
      ∧ init_state.bold = false ∧ init_state.italic = false)
    ∧ ((applyToggles [Toggle.spoiler, Toggle.bold] init_state).parents.length
          = 1 + numFlags (applyToggles [Toggle.spoiler, Toggle.bold] init_state)
      ∧ (code_toggle init_state).parents = init_state.parents
      ∧ (code_toggle init_state).code = !init_state.code) :=
  ⟨⟨le_refl 1, rfl, rfl, rfl, rfl⟩,
   stack_depth_tracks_flags [Toggle.spoiler, Toggle.bold] init_state 1
     (le_refl 1) rfl rfl rfl rfl⟩

/-- C10: the parse_string loop terminates: after every found occurrence the
remaining fragment is strictly shorter (the scan advances past the match by
at least the separator length), fuel frag.length + 1 already computes the
loop's fixpoint, and the filler and toggle are invoked only finitely many
times per call — 2k + 1 invocations in all for k occurrences, with at most
frag.length + 1 pieces. -/
theorem parse_string_terminates {σ : Type} (fi : List Char → σ → σ)
    (tg : σ → σ) (sep frag : List Char) (st : σ) (fuel i : Nat)
    (hs : sep ≠ []) (hfuel : frag.length < fuel) :
    (findSub frag sep = some i →
        (frag.drop (i + sep.length)).length < frag.length)
    ∧ parse_string_fuel sep fi tg fuel frag st = parse_string sep fi tg frag st
    ∧ (eventLog sep frag).length = 2 * ((splitPieces sep frag).length - 1) + 1
    ∧ (splitPieces sep frag).length ≤ frag.length + 1 := by
  refine ⟨?_, ?_, ?_, split_fuel_length_le sep hs _ frag⟩
  · intro hf
    have hb := findSub_bound frag sep i hf
    have hsl := sep_length_pos sep hs
    simp only [List.length_drop]
    omega
  · rw [parse_string_fuel_eq sep hs fi tg fuel frag st hfuel]
    unfold parse_string
    rw [parse_string_fuel_eq sep hs fi tg (frag.length + 1) frag st (by omega)]
    rw [split_fuel_congr sep hs fuel (frag.length + 1) frag hfuel (by omega)]
  · rw [eventLog_eq sep frag hs]
    exact pieceEvents_length _ (splitPieces_ne_nil sep frag)

theorem parse_string_terminates_witness :
    ((['*', '*'] : List Char) ≠ [] ∧ "a**b".data.length < 10)
    ∧ ((findSub "a**b".data ['*', '*'] = some 1 →
          ("a**b".data.drop (1 + (['*', '*'] : List Char).length)).length
            < "a**b".data.length)
      ∧ parse_string_fuel ['*', '*'] (fun p (n : Nat) => n + p.length)
            Nat.succ 10 "a**b".data 0
          = parse_string ['*', '*'] (fun p (n : Nat) => n + p.length)
              Nat.succ "a**b".data 0
      ∧ (eventLog ['*', '*'] "a**b".data).length
          = 2 * ((splitPieces ['*', '*'] "a**b".data).length - 1) + 1
      ∧ (splitPieces ['*', '*'] "a**b".data).length ≤ "a**b".data.length + 1) :=
  ⟨⟨by decide, by decide⟩,
   parse_string_terminates (fun p (n : Nat) => n + p.length) Nat.succ
     ['*', '*'] "a**b".data 0 10 1 (by decide) (by decide)⟩


end Meguca
